import Mathlib

/-!
Verification of the LSB steganography core (`src/lsb.py`).

The Python functions are embedded shallowly:

* a PIL RGB image becomes `Img`: a width, a height, and a pixel map
  `px x y = (r, g, b)` of natural-number channel samples;
* byte strings / bit lists become `List Nat`;
* Python exceptions become `Except Err`, with `Err.valueError msg`
  standing for `raise ValueError(msg)` and `Err.keyError k` for the
  `KeyError` raised by a missing dict lookup;
* Python list slices `l[i:j]` (whose bounds may be negative or past the
  end) become `pySlice`; slices with nonnegative in-range bounds are
  written with `sliceN`.

Every definition below mirrors the corresponding Python function of
`src/lsb.py`; file I/O, the zip archiver and the PNG codec are external
collaborators and appear only as the byte blob / `Img` values they
produce.
-/

/-- Python errors raised by `lsb.py`: `ValueError(msg)` and `KeyError(k)`. -/
inductive Err where
  | valueError (msg : String)
  | keyError (k : Nat)
deriving DecidableEq

/-- A decoded raster image: dimensions plus a pixel map returning the
`(r, g, b)` channel triple at column `x`, row `y` (PIL's `pixels[x, y]`). -/
structure Img where
  width : Nat
  height : Nat
  px : Nat → Nat → Nat × Nat × Nat

/-- Test-fixture image: red channel holds `reds.getD (y*w+x) 0`, green and
blue are zero.  Used only to build concrete inputs for witnesses. -/
def mkImg (w h : Nat) (reds : List Nat) : Img :=
  ⟨w, h, fun x y => (reds.getD (y * w + x) 0, 0, 0)⟩

/-- Test-fixture image with constant pixel `(200, 30, 40)`. -/
def constImg : Img := ⟨2, 2, fun _ _ => (200, 30, 40)⟩

/-- Clamp a Python index `i` against a list of length `n`: negative indices
count from the end and are clamped at 0, large indices are clamped at `n`. -/
def pyIdx (n : Nat) (i : Int) : Nat :=
  if i < 0 then ((n : Int) + i).toNat else min i.toNat n

/-- Python slice `l[i:j]` (step 1) with full index-clamping semantics. -/
def pySlice (l : List α) (i j : Int) : List α :=
  (l.take (pyIdx l.length j)).drop (pyIdx l.length i)

/-- Python slice `l[a:b]` for nonnegative bounds. -/
def sliceN (l : List α) (a b : Nat) : List α := (l.take b).drop a

/-- The bit-emission loop `for i in range(k-1, -1, -1): bits.append((val >> i) & 1)`
shared by `bytes_to_bits` (k = 8) and the header builder (k = 32):
the `k` low bits of `val`, most significant first. -/
def intToBits (k val : Nat) : List Nat :=
  (List.range k).map (fun i => (val >>> (k - 1 - i)) &&& 1)

/-- `bytes_to_bits` from `lsb.py`: each byte's 8 bits, MSB first, in order. -/
def bytes_to_bits : List Nat → List Nat
  | [] => []
  | byte :: rest => intToBits 8 byte ++ bytes_to_bits rest

/-- The inner loop of `bits_to_bytes` on one block of at most 8 bits:
shift in the available bits, then keep shifting zeros in for the missing
low-order positions. -/
def byteOfBlock (l : List Nat) : Nat :=
  (l.foldl (fun byte bit => (byte <<< 1) ||| bit) 0) <<< (8 - l.length)

/-- `bits_to_bytes` from `lsb.py`: one byte per 8-bit block
(`for b in range(0, len(bits), 8)`), the final short block zero-padded on
the low end. -/
def bits_to_bytes : List Nat → List Nat
  | [] => []
  | b1 :: b2 :: b3 :: b4 :: b5 :: b6 :: b7 :: b8 :: rest =>
      byteOfBlock [b1, b2, b3, b4, b5, b6, b7, b8] :: bits_to_bytes rest
  | bits => [byteOfBlock bits]

/-- The nested `bits_to_int` of `extract_bits_from_image`:
`for bit in bits_slice: val = (val << 1) | bit`. -/
def bits_to_int (l : List Nat) : Nat :=
  l.foldl (fun val bit => (val <<< 1) ||| bit) 0

/-- The 96-bit header built by `embed_bits_in_image`: `chunk_index`,
`total_chunks` and the data length in bits, 32 bits each, MSB first. -/
def headerBits (chunk_index total_chunks data_len : Nat) : List Nat :=
  intToBits 32 chunk_index ++ intToBits 32 total_chunks ++ intToBits 32 data_len

/-- The pixel-writing loop of `embed_bits_in_image` (lines 52-62): pixel
`(x, y)` — the `y*width+x`-th in row-major order — gets its red LSB
overwritten (`r = (r & 0xFE) | full_bits[bit_idx]`) while `bit_idx` is
below `len(full_bits)`; later pixels are untouched. -/
def embedFrame (img : Img) (full_bits : List Nat) : Img :=
  { img with
    px := fun x y =>
      if x < img.width ∧ y < img.height ∧ y * img.width + x < full_bits.length then
        ((((img.px x y).1 &&& 0xFE) ||| full_bits.getD (y * img.width + x) 0),
          (img.px x y).2.1, (img.px x y).2.2)
      else img.px x y }

/-- `embed_bits_in_image` from `lsb.py` (writing of the output file elided):
build the 96-bit header, raise `ValueError` when header plus payload exceed
the pixel count, otherwise write the frame into the red LSBs. -/
def embed_bits_in_image (img : Img) (bits : List Nat)
    (chunk_index total_chunks : Nat) : Except Err Img :=
  let full_bits := headerBits chunk_index total_chunks bits.length ++ bits
  if full_bits.length > img.width * img.height then
    .error (.valueError "Image not large enough to hold data chunk")
  else
    .ok (embedFrame img full_bits)

/-- The bit-collection loop of `extract_bits_from_image`: the red-channel
LSB of every pixel in row-major order. -/
def redLSBs (img : Img) : List Nat :=
  (List.range (img.width * img.height)).map
    (fun i => (img.px (i % img.width) (i / img.width)).1 &&& 1)

/-- `extract_bits_from_image` from `lsb.py`: read all red LSBs, parse the
(possibly truncated) 96-bit header, then return the header fields together
with `bits_to_bytes` of the payload slice. -/
def extract_bits_from_image (img : Img) : Nat × Nat × List Nat :=
  let bits := redLSBs img
  let header_bits := bits.take 96
  let chunk_index := bits_to_int (sliceN header_bits 0 32)
  let total_chunks := bits_to_int (sliceN header_bits 32 64)
  let data_length := bits_to_int (sliceN header_bits 64 96)
  let data_bits := sliceN bits 96 (96 + data_length)
  (chunk_index, total_chunks, bits_to_bytes data_bits)

/-- The chunk-splitting loop of `embed_zip_of_dir_into_images` (step 4):
`chunks.append(zip_bits[bit_pos:bit_pos+cap]); bit_pos += cap` for each
capacity in order.  `bit_pos` is an integer because a sub-96-pixel image
has a negative Python capacity. -/
def splitChunks (zip_bits : List Nat) : List Int → Int → List (List Nat)
  | [], _ => []
  | cap :: rest, bit_pos =>
      pySlice zip_bits bit_pos (bit_pos + cap) :: splitChunks zip_bits rest (bit_pos + cap)

/-- The embedding loop of `embed_zip_of_dir_into_images` (step 5):
`for i, (img_path, chunk_bits) in enumerate(zip(image_list, chunks))`. -/
def embedLoop (total_chunks : Nat) : List (Img × List Nat) → Nat → Except Err (List Img)
  | [], _ => .ok []
  | (img, chunk_bits) :: rest, i =>
      match embed_bits_in_image img chunk_bits i total_chunks with
      | .error e => .error e
      | .ok s =>
          match embedLoop total_chunks rest (i + 1) with
          | .error e => .error e
          | .ok ss => .ok (s :: ss)

/-- `embed_zip_of_dir_into_images` from `lsb.py`, with the directory →
zip-blob step (external archiver) replaced by its result `zip_data` and
file writing elided: compute per-image capacities `w*h - 96`, fail when
the payload exceeds their sum, split the payload greedily and embed chunk
`i` with header `(i, total_chunks)` into image `i`. -/
def embed_zip_of_dir_into_images (zip_data : List Nat) (image_list : List Img) :
    Except Err (List Img) :=
  let zip_bits := bytes_to_bits zip_data
  let capacities : List Int :=
    image_list.map (fun img => (img.width * img.height : Int) - 96)
  let total_capacity := capacities.sum
  if (zip_bits.length : Int) > total_capacity then
    .error (.valueError "Not enough capacity in images to store zip data")
  else
    let chunks := splitChunks zip_bits capacities 0
    embedLoop chunks.length (image_list.zip chunks) 0

/-- Python dict assignment `chunks_dict[chunk_index] = data_bytes` on an
association-list model of the dict: overwrite an existing key in place,
otherwise append. -/
def dictInsert (d : List (Nat × List Nat)) (k : Nat) (v : List Nat) :
    List (Nat × List Nat) :=
  if d.any (fun p => p.1 == k) then
    d.map (fun p => if p.1 == k then (k, v) else p)
  else d ++ [(k, v)]

/-- Python dict lookup `chunks_dict[i]`, as an `Option`. -/
def dictGet? (d : List (Nat × List Nat)) (k : Nat) : Option (List Nat) :=
  (d.find? (fun p => p.1 == k)).map (fun p => p.2)

/-- The extraction loop of `recover_zip_from_images`: accumulate the dict
and remember the first-seen `total_chunks`. -/
def recoverLoop : List Img → List (Nat × List Nat) → Option Nat →
    List (Nat × List Nat) × Option Nat
  | [], d, t => (d, t)
  | img :: rest, d, t =>
      let r := extract_bits_from_image img
      recoverLoop rest (dictInsert d r.1 r.2.2)
        (match t with
         | none => some r.2.1
         | some t0 => some t0)

/-- `b''.join(chunks_dict[i] for i in range(total_chunks))`: concatenate the
chunks at keys `i, i+1, ...` (`n` of them), raising `KeyError` at the first
missing key. -/
def joinFrom (d : List (Nat × List Nat)) : Nat → Nat → Except Err (List Nat)
  | _, 0 => .ok []
  | i, n + 1 =>
      match dictGet? d i with
      | none => .error (.keyError i)
      | some v =>
          match joinFrom d (i + 1) n with
          | .error e => .error e
          | .ok rest => .ok (v ++ rest)

/-- `recover_zip_from_images` from `lsb.py` (file writing elided): extract
every image, then fail when no image was seen or the dict size differs from
the first-seen `total_chunks`; otherwise concatenate by ascending index. -/
def recover_zip_from_images (embedded_images : List Img) : Except Err (List Nat) :=
  let p := recoverLoop embedded_images [] none
  match p.2 with
  | none => .error (.valueError "Missing chunks, cannot recover full zip")
  | some total_chunks =>
      if p.1.length ≠ total_chunks then
        .error (.valueError "Missing chunks, cannot recover full zip")
      else joinFrom p.1 0 total_chunks

/-- The `(chunk_index, payload_bytes)` pairs extracted from a list of stego
images, in input order; statement-level shorthand for the decoder laws. -/
def extractAssoc (imgs : List Img) : List (Nat × List Nat) :=
  imgs.map (fun img =>
    ((extract_bits_from_image img).1, (extract_bits_from_image img).2.2))

/-- Concatenation of the dict entries at keys `0 .. t-1`, in ascending key
order; statement-level shorthand for the decoder's success output. -/
def chunkConcat (d : List (Nat × List Nat)) (t : Nat) : List Nat :=
  (List.range t).foldr (fun i acc => (dictGet? d i).getD [] ++ acc) []

/-- Modelled from the spec (§4.3 `planSplit`), as the comparison target for
the split-plan claim: allot `min(remaining, cap)` bits to each image in
order.  Unlike the spec's plan the code does not stop at 0 remaining bits,
so this version also continues, minting (possibly empty) allotments for
every image. -/
def specGreedyAllot (remaining : Nat) : List Nat → List Nat
  | [] => []
  | cap :: rest => min cap remaining :: specGreedyAllot (remaining - min cap remaining) rest

/-- Projection of an `Except` result to its success value, for decidable
closed-form statements. -/
def exOk? : Except Err α → Option α
  | .ok v => some v
  | .error _ => none

/-- Projection of an `Except` result to its error, for decidable
closed-form statements. -/
def exErr? : Except Err α → Option Err
  | .ok _ => none
  | .error e => some e

/-! ### Bit-level lemmas -/

theorem lor_bit (a b : Nat) (ha : a % 2 = 0) (hb : b ≤ 1) : a ||| b = a + b := by
  interval_cases b
  · simp
  · apply Nat.eq_of_testBit_eq
    intro i
    cases i with
    | zero =>
        simp only [Nat.testBit_or, Nat.testBit_zero]
        have h1 : (a + 1) % 2 = 1 := by omega
        simp [ha, h1]
    | succ n =>
        rw [Nat.testBit_or]
        simp only [Nat.testBit_succ]
        have h1 : (a + 1) / 2 = a / 2 := by omega
        have h2 : (1 : Nat) / 2 = 0 := by norm_num
        simp [h1, h2]

theorem land_two_pow_mod (r : Nat) : (r &&& 254) % 2 = 0 := by
  have h : (r &&& 254) &&& 1 = 0 := by
    rw [Nat.and_assoc]
    have h254 : (254 : Nat) &&& 1 = 0 := by decide
    rw [h254, Nat.and_zero]
  rwa [Nat.and_one_is_mod] at h

theorem lsb_set (r b : Nat) (hb : b ≤ 1) : ((r &&& 254) ||| b) &&& 1 = b := by
  rw [lor_bit _ _ (land_two_pow_mod r) hb, Nat.and_one_is_mod]
  have := land_two_pow_mod r
  omega

set_option maxRecDepth 4096 in
theorem land_byte_eval : ∀ r < 256, r &&& 254 = 2 * (r / 2) := by decide

theorem intToBits_length (k v : Nat) : (intToBits k v).length = k := by
  simp [intToBits]

theorem intToBits_le_one (k v : Nat) : ∀ b ∈ intToBits k v, b ≤ 1 := by
  intro b hb
  simp only [intToBits, List.mem_map] at hb
  obtain ⟨i, _, rfl⟩ := hb
  rw [Nat.and_one_is_mod]
  omega

theorem intToBits_succ (k v : Nat) :
    intToBits (k + 1) v = ((v >>> k) &&& 1) :: intToBits k v := by
  simp only [intToBits, List.range_succ_eq_map, List.map_cons, List.map_map,
    List.cons.injEq]
  refine ⟨by simp, ?_⟩
  apply List.map_congr_left
  intro i _
  simp only [Function.comp_apply]
  rw [show k + 1 - 1 - (i + 1) = k - 1 - i from by omega]

theorem foldl_intToBits (k : Nat) :
    ∀ (a v : Nat), (intToBits k v).foldl (fun val bit => (val <<< 1) ||| bit) a
      = a * 2 ^ k + v % 2 ^ k := by
  induction k with
  | zero => simp [intToBits, Nat.mod_one]
  | succ k ih =>
      intro a v
      rw [intToBits_succ, List.foldl_cons]
      have hbit : (v >>> k) &&& 1 = v / 2 ^ k % 2 := by
        rw [Nat.shiftRight_eq_div_pow, Nat.and_one_is_mod]
      have hstep : (a <<< 1) ||| ((v >>> k) &&& 1) = 2 * a + v / 2 ^ k % 2 := by
        rw [hbit, Nat.shiftLeft_eq]
        have : a * 2 ^ 1 = 2 * a := by ring
        rw [this, lor_bit (2 * a) (v / 2 ^ k % 2) (by omega) (by omega)]
      rw [hstep, ih]
      have hmod : v % 2 ^ (k + 1) = v % 2 ^ k + 2 ^ k * (v / 2 ^ k % 2) :=
        Nat.mod_pow_succ
      have hpow : (2 : Nat) ^ (k + 1) = 2 ^ k * 2 := by ring
      rw [hmod, hpow]
      ring

theorem bits_to_int_intToBits (k v : Nat) : bits_to_int (intToBits k v) = v % 2 ^ k := by
  rw [bits_to_int, foldl_intToBits]
  simp

theorem intToBits_mod (k v : Nat) : intToBits k (v % 2 ^ k) = intToBits k v := by
  apply List.map_congr_left
  intro i hi
  rw [List.mem_range] at hi
  have hlt : k - 1 - i < k := by omega
  rw [Nat.shiftRight_eq_div_pow, Nat.shiftRight_eq_div_pow,
    Nat.and_one_is_mod, Nat.and_one_is_mod]
  have hsplit : (2 : Nat) ^ k = 2 ^ (k - 1 - i) * 2 ^ (k - (k - 1 - i)) := by
    rw [← pow_add]
    congr 1
    omega
  rw [hsplit, Nat.mod_mul_right_div_self]
  have hdvd : (2 : Nat) ∣ 2 ^ (k - (k - 1 - i)) :=
    dvd_pow_self 2 (by omega)
  rw [Nat.mod_mod_of_dvd _ hdvd]

theorem bytes_to_bits_length (data : List Nat) :
    (bytes_to_bits data).length = 8 * data.length := by
  induction data with
  | nil => simp [bytes_to_bits]
  | cons b rest ih =>
      simp [bytes_to_bits, intToBits_length, ih]
      omega

theorem bytes_to_bits_le_one (data : List Nat) : ∀ b ∈ bytes_to_bits data, b ≤ 1 := by
  induction data with
  | nil => simp [bytes_to_bits]
  | cons x rest ih =>
      intro b hb
      rw [bytes_to_bits, List.mem_append] at hb
      rcases hb with hb | hb
      · exact intToBits_le_one 8 x b hb
      · exact ih b hb

theorem bits_to_bytes_intToBits8 (x : Nat) (rest : List Nat) :
    bits_to_bytes (intToBits 8 x ++ rest)
      = byteOfBlock (intToBits 8 x) :: bits_to_bytes rest := rfl

theorem byteOfBlock_intToBits (v : Nat) : byteOfBlock (intToBits 8 v) = v % 256 := by
  show (bits_to_int (intToBits 8 v)) <<< (8 - (intToBits 8 v).length) = v % 256
  rw [intToBits_length, bits_to_int_intToBits]
  norm_num

theorem codec_roundtrip (blob : List Nat) (hb : ∀ b ∈ blob, b < 256) :
    bits_to_bytes (bytes_to_bits blob) = blob := by
  induction blob with
  | nil => rfl
  | cons x rest ih =>
      have hx : x < 256 := hb x (List.mem_cons_self x rest)
      rw [bytes_to_bits, bits_to_bytes_intToBits8, byteOfBlock_intToBits,
        Nat.mod_eq_of_lt hx, ih (fun b h' => hb b (List.mem_cons_of_mem x h'))]

/-! ### Slice lemmas -/

theorem pyIdx_le (n : Nat) (i : Int) : pyIdx n i ≤ n := by
  rw [pyIdx]
  split
  · omega
  · omega

theorem pyIdx_natCast (n a : Nat) : pyIdx n (a : Int) = min a n := by
  rw [pyIdx]
  split
  · omega
  · simp

theorem length_pySlice (l : List α) (i j : Int) :
    (pySlice l i j).length = pyIdx l.length j - pyIdx l.length i := by
  rw [pySlice, List.length_drop, List.length_take]
  have := pyIdx_le l.length j
  omega

theorem mem_pySlice {l : List α} {i j : Int} {b : α} (h : b ∈ pySlice l i j) : b ∈ l :=
  List.mem_of_mem_take (List.mem_of_mem_drop h)

theorem mem_sliceN {l : List α} {a c : Nat} {b : α} (h : b ∈ sliceN l a c) : b ∈ l :=
  List.mem_of_mem_take (List.mem_of_mem_drop h)

/-! ### List indexing helpers -/

theorem getD_of_lt (l : List Nat) (i : Nat) (h : i < l.length) :
    l.getD i 0 = l.get ⟨i, h⟩ := by
  rw [List.getD_eq_getElem?_getD, List.getElem?_eq_getElem h]
  rfl

theorem getD_le_one (l : List Nat) (hb : ∀ b ∈ l, b ≤ 1) (i : Nat) : l.getD i 0 ≤ 1 := by
  by_cases h : i < l.length
  · rw [getD_of_lt l i h]
    exact hb _ (List.get_mem l i h)
  · rw [List.getD_eq_getElem?_getD, List.getElem?_eq_none (by omega)]
    simp

/-! ### Red-LSB stream lemmas -/

theorem redLSBs_length (img : Img) : (redLSBs img).length = img.width * img.height := by
  simp [redLSBs]

theorem redLSBs_le_one (img : Img) : ∀ b ∈ redLSBs img, b ≤ 1 := by
  intro b hb
  simp only [redLSBs, List.mem_map] at hb
  obtain ⟨i, _, rfl⟩ := hb
  rw [Nat.and_one_is_mod]
  omega


theorem embedFrame_px (img : Img) (fb : List Nat) (x y : Nat) :
    (embedFrame img fb).px x y
      = if x < img.width ∧ y < img.height ∧ y * img.width + x < fb.length then
          ((((img.px x y).1 &&& 254) ||| fb.getD (y * img.width + x) 0),
            (img.px x y).2.1, (img.px x y).2.2)
        else img.px x y := rfl

theorem redLSBs_embedFrame (img : Img) (fb : List Nat)
    (hb : ∀ b ∈ fb, b ≤ 1) (hlen : fb.length ≤ img.width * img.height) :
    redLSBs (embedFrame img fb) = fb ++ (redLSBs img).drop fb.length := by
  have key : ∀ i, i < img.width * img.height →
      ((embedFrame img fb).px (i % img.width) (i / img.width)).1 &&& 1
        = if i < fb.length then fb.getD i 0
          else (img.px (i % img.width) (i / img.width)).1 &&& 1 := by
    intro i hi
    have hw : 0 < img.width := by
      rcases Nat.eq_zero_or_pos img.width with h0 | h0
      · rw [h0] at hi; omega
      · exact h0
    have hx : i % img.width < img.width := Nat.mod_lt _ hw
    have hy : i / img.width < img.height := by
      rw [Nat.div_lt_iff_lt_mul hw]
      calc i < img.width * img.height := hi
        _ = img.height * img.width := Nat.mul_comm _ _
    have hidx : (i / img.width) * img.width + i % img.width = i := by
      rw [Nat.mul_comm]
      exact Nat.div_add_mod i img.width
    rw [embedFrame_px, hidx]
    by_cases hcase : i < fb.length
    · rw [if_pos ⟨hx, hy, hcase⟩, if_pos hcase]
      exact lsb_set _ _ (getD_le_one fb hb i)
    · rw [if_neg (fun hcon => hcase hcon.2.2), if_neg hcase]
  apply List.ext_getElem
  · rw [redLSBs_length, List.length_append, List.length_drop, redLSBs_length]
    show img.width * img.height = _
    omega
  · intro i h1 h2
    have hi : i < img.width * img.height := by
      rw [redLSBs_length] at h1
      exact h1
    have hL : (redLSBs (embedFrame img fb))[i]
        = ((embedFrame img fb).px (i % img.width) (i / img.width)).1 &&& 1 := by
      have hwid : (embedFrame img fb).width = img.width := rfl
      simp [redLSBs, hwid]
    rw [hL, key i hi]
    by_cases hcase : i < fb.length
    · rw [if_pos hcase, List.getElem_append_left hcase, getD_of_lt fb i hcase]
      rfl
    · rw [if_neg hcase,
        List.getElem_append_right (show fb.length ≤ i by omega)]
      simp only [List.getElem_drop, redLSBs, List.getElem_map, List.getElem_range]
      rw [show fb.length + (i - fb.length) = i from by omega]

/-! ### Header lemmas -/

theorem headerBits_length (ci tc dl : Nat) : (headerBits ci tc dl).length = 96 := by
  simp [headerBits, intToBits_length]

theorem headerBits_le_one (ci tc dl : Nat) : ∀ b ∈ headerBits ci tc dl, b ≤ 1 := by
  intro b hb
  rw [headerBits, List.mem_append, List.mem_append] at hb
  rcases hb with (hb | hb) | hb
  · exact intToBits_le_one 32 ci b hb
  · exact intToBits_le_one 32 tc b hb
  · exact intToBits_le_one 32 dl b hb

theorem sliceN_header0 (ci tc dl : Nat) :
    sliceN (headerBits ci tc dl) 0 32 = intToBits 32 ci := by
  rw [sliceN, List.drop_zero, headerBits, List.append_assoc,
    List.take_left' (intToBits_length 32 ci)]

theorem sliceN_header32 (ci tc dl : Nat) :
    sliceN (headerBits ci tc dl) 32 64 = intToBits 32 tc := by
  rw [sliceN, headerBits,
    List.take_left' (by simp [intToBits_length]),
    List.drop_left' (intToBits_length 32 ci)]

theorem sliceN_header64 (ci tc dl : Nat) :
    sliceN (headerBits ci tc dl) 64 96 = intToBits 32 dl := by
  rw [sliceN, List.take_of_length_le (le_of_eq (headerBits_length ci tc dl)),
    headerBits, List.drop_left' (by simp [intToBits_length])]

/-! ### Extraction of an embedded frame -/

theorem extract_def (img : Img) :
    extract_bits_from_image img
      = (bits_to_int (sliceN ((redLSBs img).take 96) 0 32),
         bits_to_int (sliceN ((redLSBs img).take 96) 32 64),
         bits_to_bytes (sliceN (redLSBs img) 96
           (96 + bits_to_int (sliceN ((redLSBs img).take 96) 64 96)))) := rfl

theorem extract_embed (img : Img) (bits : List Nat) (ci tc : Nat)
    (hb : ∀ b ∈ bits, b ≤ 1) (hcap : 96 + bits.length ≤ img.width * img.height) :
    extract_bits_from_image (embedFrame img (headerBits ci tc bits.length ++ bits))
      = (ci % 2 ^ 32, tc % 2 ^ 32, bits_to_bytes (bits.take (bits.length % 2 ^ 32))) := by
  have hfb_le : ∀ b ∈ headerBits ci tc bits.length ++ bits, b ≤ 1 := by
    intro b hmem
    rw [List.mem_append] at hmem
    rcases hmem with hmem | hmem
    · exact headerBits_le_one _ _ _ b hmem
    · exact hb b hmem
  have hfb_len : (headerBits ci tc bits.length ++ bits).length = 96 + bits.length := by
    rw [List.length_append, headerBits_length]
  have hall : redLSBs (embedFrame img (headerBits ci tc bits.length ++ bits))
      = headerBits ci tc bits.length
          ++ (bits ++ (redLSBs img).drop (96 + bits.length)) := by
    rw [redLSBs_embedFrame img _ hfb_le (by omega), hfb_len, List.append_assoc]
  have htake96 : (redLSBs (embedFrame img (headerBits ci tc bits.length ++ bits))).take 96
      = headerBits ci tc bits.length := by
    rw [hall, List.take_left' (headerBits_length _ _ _)]
  have hdl_le : bits.length % 2 ^ 32 ≤ bits.length := Nat.mod_le _ _
  have hdata : sliceN (redLSBs (embedFrame img (headerBits ci tc bits.length ++ bits)))
        96 (96 + bits.length % 2 ^ 32)
      = bits.take (bits.length % 2 ^ 32) := by
    rw [sliceN, hall, List.take_append_eq_append_take,
      List.take_of_length_le (by rw [headerBits_length]; omega),
      headerBits_length,
      show 96 + bits.length % 2 ^ 32 - 96 = bits.length % 2 ^ 32 from by omega,
      List.take_append_eq_append_take,
      Nat.sub_eq_zero_of_le hdl_le, List.take_zero, List.append_nil,
      List.drop_left' (headerBits_length ci tc bits.length)]
  rw [extract_def, htake96, sliceN_header0, sliceN_header32, sliceN_header64,
    bits_to_int_intToBits, bits_to_int_intToBits, bits_to_int_intToBits, hdata]

theorem bits_to_bytes_cons8 (b1 b2 b3 b4 b5 b6 b7 b8 : Nat) (rest : List Nat) :
    bits_to_bytes (b1 :: b2 :: b3 :: b4 :: b5 :: b6 :: b7 :: b8 :: rest)
      = byteOfBlock [b1, b2, b3, b4, b5, b6, b7, b8] :: bits_to_bytes rest := rfl

/-! ### Claim C3: per-image wire-format round trip -/

/-- C3 (amended): for every RGB image, bit sequence with
`96 + len(bits) ≤ w*h` **and `len(bits) < 2^32`**, and `chunk_index`,
`total_chunks` in unsigned 32-bit range, `embed_bits_in_image` succeeds,
writes the 96 header bits followed by the payload bits into the first
red-channel LSBs in row-major order leaving the remaining LSBs unchanged,
and `extract_bits_from_image` on the result returns exactly
`(chunk_index, total_chunks, bits_to_bytes bits)`. -/
theorem C3_amended (img : Img) (bits : List Nat) (chunk_index total_chunks : Nat)
    (hb : ∀ b ∈ bits, b ≤ 1)
    (hcap : 96 + bits.length ≤ img.width * img.height)
    (hci : chunk_index < 2 ^ 32) (htc : total_chunks < 2 ^ 32)
    (hdl : bits.length < 2 ^ 32) :
    embed_bits_in_image img bits chunk_index total_chunks
        = .ok (embedFrame img (headerBits chunk_index total_chunks bits.length ++ bits)) ∧
    redLSBs (embedFrame img (headerBits chunk_index total_chunks bits.length ++ bits))
        = headerBits chunk_index total_chunks bits.length ++ bits
            ++ (redLSBs img).drop (96 + bits.length) ∧
    extract_bits_from_image
        (embedFrame img (headerBits chunk_index total_chunks bits.length ++ bits))
      = (chunk_index, total_chunks, bits_to_bytes bits) := by
  have hfb_le : ∀ b ∈ headerBits chunk_index total_chunks bits.length ++ bits, b ≤ 1 := by
    intro b hmem
    rw [List.mem_append] at hmem
    rcases hmem with hmem | hmem
    · exact headerBits_le_one _ _ _ b hmem
    · exact hb b hmem
  have hfb_len : (headerBits chunk_index total_chunks bits.length ++ bits).length
      = 96 + bits.length := by
    rw [List.length_append, headerBits_length]
  refine ⟨?_, ?_, ?_⟩
  · simp only [embed_bits_in_image]
    rw [if_neg (by rw [hfb_len]; omega)]
  · rw [redLSBs_embedFrame img _ hfb_le (by omega), hfb_len]
  · rw [extract_embed img bits _ _ hb hcap, Nat.mod_eq_of_lt hci,
      Nat.mod_eq_of_lt htc, Nat.mod_eq_of_lt hdl, List.take_length]

/-- C3 witness: concrete run of the amended round trip on a 10x10 zero
image with payload `[1, 0, 1]`, `chunk_index = 2`, `total_chunks = 3`. -/
theorem C3_amended_w :
    embed_bits_in_image (mkImg 10 10 []) [1, 0, 1] 2 3
        = .ok (embedFrame (mkImg 10 10 [])
            (headerBits 2 3 ([1, 0, 1] : List Nat).length ++ [1, 0, 1])) ∧
    redLSBs (embedFrame (mkImg 10 10 [])
        (headerBits 2 3 ([1, 0, 1] : List Nat).length ++ [1, 0, 1]))
      = headerBits 2 3 ([1, 0, 1] : List Nat).length ++ [1, 0, 1]
          ++ (redLSBs (mkImg 10 10 [])).drop (96 + ([1, 0, 1] : List Nat).length) ∧
    extract_bits_from_image (embedFrame (mkImg 10 10 [])
        (headerBits 2 3 ([1, 0, 1] : List Nat).length ++ [1, 0, 1]))
      = (2, 3, bits_to_bytes [1, 0, 1]) :=
  C3_amended (mkImg 10 10 []) [1, 0, 1] 2 3 (by decide) (by decide) (by decide)
    (by decide) (by decide)

/-- C3 counterexample: with a payload of `2^32` bits (in an image large
enough to hold it) the 32-bit length field wraps to 0, so extraction
returns an empty payload instead of `bits_to_bytes bits`: the claim fails
without the `len(bits) < 2^32` bound. -/
theorem C3_cex :
    embed_bits_in_image (mkImg (2 ^ 32 + 96) 1 []) (List.replicate (2 ^ 32) 0) 0 1
        = .ok (embedFrame (mkImg (2 ^ 32 + 96) 1 [])
            (headerBits 0 1 (List.replicate (2 ^ 32) (0 : Nat)).length
              ++ List.replicate (2 ^ 32) 0)) ∧
    extract_bits_from_image (embedFrame (mkImg (2 ^ 32 + 96) 1 [])
        (headerBits 0 1 (List.replicate (2 ^ 32) (0 : Nat)).length
          ++ List.replicate (2 ^ 32) 0))
      = (0, 1, []) ∧
    bits_to_bytes (List.replicate (2 ^ 32) (0 : Nat)) ≠ [] := by
  have hb : ∀ b ∈ List.replicate (2 ^ 32) (0 : Nat), b ≤ 1 := by
    intro b hmem
    rw [List.mem_replicate] at hmem
    omega
  have hcap : 96 + (List.replicate (2 ^ 32) (0 : Nat)).length
      ≤ (mkImg (2 ^ 32 + 96) 1 []).width * (mkImg (2 ^ 32 + 96) 1 []).height := by
    rw [List.length_replicate]
    show 96 + 2 ^ 32 ≤ (2 ^ 32 + 96) * 1
    omega
  refine ⟨?_, ?_, ?_⟩
  · simp only [embed_bits_in_image]
    rw [if_neg (by
      intro hgt
      rw [List.length_append, headerBits_length] at hgt
      omega)]
  · rw [extract_embed _ _ _ _ hb hcap, List.length_replicate]
    norm_num
    rfl
  · rw [show List.replicate (2 ^ 32) (0 : Nat)
        = 0 :: 0 :: 0 :: 0 :: 0 :: 0 :: 0 :: 0 :: List.replicate (2 ^ 32 - 8) 0 from by
      rw [show (2 : Nat) ^ 32 = 8 + (2 ^ 32 - 8) from by norm_num, List.replicate_add]
      rfl]
    rw [bits_to_bytes_cons8]
    exact List.cons_ne_nil _ _

/-! ### Claim C4: frame effect of the embedding loop -/

/-- C4: for every RGB image (channel samples below 256) and frame bit
sequence with `len(frame_bits) ≤ width*height`, the embedding loop writes
frame bit `k = y*width+x` into the red-channel LSB of pixel `(x, y)`,
preserves the remaining red bits and the green and blue channels there,
and leaves every pixel with `y*width+x ≥ len(frame_bits)` unmodified. -/
theorem C4_frame (img : Img) (frame_bits : List Nat)
    (hwf : ∀ x y, (img.px x y).1 < 256)
    (hb : ∀ b ∈ frame_bits, b ≤ 1)
    (hlen : frame_bits.length ≤ img.width * img.height)
    (x y : Nat) (hx : x < img.width) (hy : y < img.height) :
    (y * img.width + x < frame_bits.length →
        ((embedFrame img frame_bits).px x y).1 % 2
            = frame_bits.getD (y * img.width + x) 0 ∧
        ((embedFrame img frame_bits).px x y).1 / 2 = (img.px x y).1 / 2 ∧
        ((embedFrame img frame_bits).px x y).2 = (img.px x y).2) ∧
    (frame_bits.length ≤ y * img.width + x →
        (embedFrame img frame_bits).px x y = img.px x y) := by
  constructor
  · intro hlt
    rw [embedFrame_px, if_pos ⟨hx, hy, hlt⟩]
    have h254 : (img.px x y).1 &&& 254 = 2 * ((img.px x y).1 / 2) :=
      land_byte_eval _ (hwf x y)
    have hbit : frame_bits.getD (y * img.width + x) 0 ≤ 1 := getD_le_one _ hb _
    have hor : ((img.px x y).1 &&& 254) ||| frame_bits.getD (y * img.width + x) 0
        = 2 * ((img.px x y).1 / 2) + frame_bits.getD (y * img.width + x) 0 := by
      rw [h254]
      exact lor_bit _ _ (by omega) hbit
    refine ⟨?_, ?_, rfl⟩
    · show (((img.px x y).1 &&& 254) ||| frame_bits.getD (y * img.width + x) 0) % 2 = _
      rw [hor]
      omega
    · show (((img.px x y).1 &&& 254) ||| frame_bits.getD (y * img.width + x) 0) / 2 = _
      rw [hor]
      omega
  · intro hge
    rw [embedFrame_px, if_neg (fun hcon => absurd hcon.2.2 (by omega))]

/-- C4 witness: the frame effect evaluated at pixel `(0, 0)` of a constant
`(200, 30, 40)` image with frame bits `[1, 1, 0]`. -/
theorem C4_frame_w :
    (0 * constImg.width + 0 < ([1, 1, 0] : List Nat).length →
        ((embedFrame constImg [1, 1, 0]).px 0 0).1 % 2
            = ([1, 1, 0] : List Nat).getD (0 * constImg.width + 0) 0 ∧
        ((embedFrame constImg [1, 1, 0]).px 0 0).1 / 2 = (constImg.px 0 0).1 / 2 ∧
        ((embedFrame constImg [1, 1, 0]).px 0 0).2 = (constImg.px 0 0).2) ∧
    (([1, 1, 0] : List Nat).length ≤ 0 * constImg.width + 0 →
        (embedFrame constImg [1, 1, 0]).px 0 0 = constImg.px 0 0) :=
  C4_frame constImg [1, 1, 0] (fun _ _ => by show (200 : Nat) < 256; decide)
    (by decide) (by decide) 0 0 (by decide) (by decide)

/-! ### Claim C9: header underflow -/

/-- C9 (amended): extraction never fails on a small carrier: with fewer
than 96 available bits the header fields are silently parsed from the
truncated slices; in particular an image with at most 64 pixels parses
`payload_bit_length` from an empty slice (hence 0) and returns an empty
payload. -/
theorem C9_amended (img : Img) (hsmall : img.width * img.height ≤ 64) :
    (extract_bits_from_image img).2.2 = [] := by
  have hlen : (redLSBs img).length ≤ 64 := by
    rw [redLSBs_length]
    exact hsmall
  rw [extract_def]
  show bits_to_bytes (sliceN (redLSBs img) 96
      (96 + bits_to_int (sliceN ((redLSBs img).take 96) 64 96))) = []
  have hdl : sliceN ((redLSBs img).take 96) 64 96 = [] := by
    rw [sliceN]
    apply List.drop_eq_nil_of_le
    rw [List.length_take, List.length_take]
    omega
  rw [hdl]
  show bits_to_bytes (sliceN (redLSBs img) 96 (96 + bits_to_int [])) = []
  have hempty : sliceN (redLSBs img) 96 (96 + bits_to_int []) = [] := by
    rw [sliceN]
    apply List.drop_eq_nil_of_le
    rw [List.length_take]
    omega
  rw [hempty]
  rfl

/-- C9 witness: the amended statement evaluated on a 2x2 image. -/
theorem C9_amended_w : (extract_bits_from_image (mkImg 2 2 [])).2.2 = [] :=
  C9_amended (mkImg 2 2 []) (by decide)

/-- C9 counterexample: a 2x2 (4-pixel) all-zero carrier does not raise any
header-underflow error; `extract_bits_from_image` silently parses all three
fields from the 4 available bits and returns `(0, 0, [])`. -/
theorem C9_cex : extract_bits_from_image (mkImg 2 2 []) = (0, 0, []) := by decide

/-! ### Claim C10: oversized payload_bit_length silently truncates -/

/-- C10: when the parsed `payload_bit_length` exceeds the
`width*height - 96` bits actually available after the header, extraction
does not raise: the payload slice silently truncates to the bits present
and the returned bytes are `bits_to_bytes` of exactly those bits. -/
theorem C10_truncation (img : Img)
    (hover : img.width * img.height
        < 96 + bits_to_int (sliceN ((redLSBs img).take 96) 64 96)) :
    (extract_bits_from_image img).2.2 = bits_to_bytes ((redLSBs img).drop 96) := by
  rw [extract_def]
  show bits_to_bytes (sliceN (redLSBs img) 96
      (96 + bits_to_int (sliceN ((redLSBs img).take 96) 64 96))) = _
  rw [sliceN, List.take_of_length_le (by rw [redLSBs_length]; omega)]

/-- C10 witness: a 10x10 carrier whose header declares 8 payload bits while
only 4 follow the header; extraction returns the 4 present bits, padded. -/
theorem C10_truncation_w :
    ((mkImg 10 10 (headerBits 0 1 8 ++ [1, 0, 1, 1])).width
          * (mkImg 10 10 (headerBits 0 1 8 ++ [1, 0, 1, 1])).height
        < 96 + bits_to_int (sliceN
            ((redLSBs (mkImg 10 10 (headerBits 0 1 8 ++ [1, 0, 1, 1]))).take 96) 64 96)) ∧
    (extract_bits_from_image (mkImg 10 10 (headerBits 0 1 8 ++ [1, 0, 1, 1]))).2.2
      = bits_to_bytes ((redLSBs (mkImg 10 10 (headerBits 0 1 8 ++ [1, 0, 1, 1]))).drop 96) :=
  ⟨by decide, C10_truncation _ (by decide)⟩

/-! ### Claim C5: BitCodec round trip -/

/-- C5: `bits_to_bytes (bytes_to_bits blob) = blob` for every byte blob;
`bytes_to_bits` emits `8 * len(blob)` bits; both functions are total, the
empty blob maps to the empty bit list and back, and a final group of fewer
than 8 bits is zero-padded on the low-order end (e.g. `[1] ↦ [128]`). -/
theorem C5_codec (blob : List Nat) (hblob : ∀ b ∈ blob, b < 256) :
    bits_to_bytes (bytes_to_bits blob) = blob ∧
    (bytes_to_bits blob).length = 8 * blob.length ∧
    bytes_to_bits [] = [] ∧
    bits_to_bytes [] = [] ∧
    bits_to_bytes [1] = [128] :=
  ⟨codec_roundtrip blob hblob, bytes_to_bits_length blob, rfl, rfl, by decide⟩

/-- C5 witness: the codec laws evaluated at the blob `[222, 173]`. -/
theorem C5_codec_w :
    bits_to_bytes (bytes_to_bits [222, 173]) = [222, 173] ∧
    (bytes_to_bits [222, 173]).length = 8 * ([222, 173] : List Nat).length ∧
    bytes_to_bits [] = [] ∧
    bits_to_bytes [] = [] ∧
    bits_to_bytes [1] = [128] :=
  C5_codec [222, 173] (by decide)

/-! ### Claim C8: header range checking -/

/-- C8 (amended): header encoding performs no range check at all: whenever
the frame fits the image, embedding succeeds for arbitrary `chunk_index`
and `total_chunks`, and each field is emitted as its value reduced modulo
`2^32` (the low 32 bits), silently truncating out-of-range values instead
of rejecting them. -/
theorem C8_amended (img : Img) (bits : List Nat) (chunk_index total_chunks : Nat)
    (hcap : 96 + bits.length ≤ img.width * img.height) :
    embed_bits_in_image img bits chunk_index total_chunks
        = .ok (embedFrame img
            (headerBits chunk_index total_chunks bits.length ++ bits)) ∧
    embed_bits_in_image img bits chunk_index total_chunks
        = embed_bits_in_image img bits (chunk_index % 2 ^ 32) (total_chunks % 2 ^ 32) := by
  have hok : ∀ ci tc : Nat, embed_bits_in_image img bits ci tc
      = .ok (embedFrame img (headerBits ci tc bits.length ++ bits)) := by
    intro ci tc
    simp only [embed_bits_in_image]
    rw [if_neg (by rw [List.length_append, headerBits_length]; omega)]
  refine ⟨hok _ _, ?_⟩
  rw [hok, hok, headerBits, headerBits, intToBits_mod, intToBits_mod]

/-- C8 witness: the amended statement evaluated for the out-of-range
`chunk_index = 2^32 + 5` on a 96-pixel image. -/
theorem C8_amended_w :
    embed_bits_in_image (mkImg 12 8 []) [] (2 ^ 32 + 5) 7
        = .ok (embedFrame (mkImg 12 8 [])
            (headerBits (2 ^ 32 + 5) 7 ([] : List Nat).length ++ [])) ∧
    embed_bits_in_image (mkImg 12 8 []) [] (2 ^ 32 + 5) 7
        = embed_bits_in_image (mkImg 12 8 []) [] ((2 ^ 32 + 5) % 2 ^ 32) (7 % 2 ^ 32) :=
  C8_amended (mkImg 12 8 []) [] (2 ^ 32 + 5) 7 (by decide)

/-- C8 counterexample: `chunk_index = 2^32` exceeds the unsigned 32-bit
range, yet embedding succeeds — no `RangeError` (or any error) is raised,
refuting the claimed range check. -/
theorem C8_cex : (embed_bits_in_image (mkImg 12 8 []) [] (2 ^ 32) 1).isOk = true := by
  decide

/-! ### Claim C2: the split plan -/

theorem splitChunks_length (zip_bits : List Nat) :
    ∀ (caps : List Int) (pos : Int),
      (splitChunks zip_bits caps pos).length = caps.length
  | [], _ => rfl
  | _ :: cs, pos => by
      rw [splitChunks, List.length_cons, splitChunks_length zip_bits cs, List.length_cons]

theorem splitChunks_lengths (zip_bits : List Nat) :
    ∀ (caps : List Int), (∀ c ∈ caps, 0 ≤ c) → ∀ pos : Nat,
      (splitChunks zip_bits caps (pos : Int)).map List.length
        = specGreedyAllot (zip_bits.length - pos) (caps.map Int.toNat)
  | [], _, _ => rfl
  | c :: cs, hcaps, pos => by
      have hc : 0 ≤ c := hcaps c (List.mem_cons_self c cs)
      have hcs : ∀ x ∈ cs, 0 ≤ x := fun x hx => hcaps x (List.mem_cons_of_mem c hx)
      have hcast : (pos : Int) + c = ((pos + c.toNat : Nat) : Int) := by omega
      rw [splitChunks, List.map_cons, List.map_cons, specGreedyAllot]
      simp only [List.cons.injEq]
      constructor
      · rw [length_pySlice, hcast, pyIdx_natCast, pyIdx_natCast]
        omega
      · rw [hcast, splitChunks_lengths zip_bits cs hcs (pos + c.toNat),
          show zip_bits.length - pos - min c.toNat (zip_bits.length - pos)
            = zip_bits.length - (pos + c.toNat) from by omega]

/-- C2 (amended): the encoder's split plan allots
`min(remaining_bits, capacity)` bits to each image in order, but it does
**not** stop when the payload is exhausted: every supplied image receives a
chunk (possibly empty), so `total_chunks` equals the number of images — not
the number of nonempty allotments — and chunk indices `0..#images-1` are
minted in image order. -/
theorem C2_amended (zip_data : List Nat) (imgs : List Img)
    (h96 : ∀ img ∈ imgs, 96 ≤ img.width * img.height) :
    (splitChunks (bytes_to_bits zip_data)
        (imgs.map (fun img => (img.width * img.height : Int) - 96)) 0).length
      = imgs.length ∧
    (splitChunks (bytes_to_bits zip_data)
        (imgs.map (fun img => (img.width * img.height : Int) - 96)) 0).map List.length
      = specGreedyAllot (8 * zip_data.length)
          (imgs.map (fun img => img.width * img.height - 96)) := by
  have hcaps : ∀ c ∈ imgs.map (fun img => (img.width * img.height : Int) - 96), 0 ≤ c := by
    intro c hc
    rw [List.mem_map] at hc
    obtain ⟨img, hmem, rfl⟩ := hc
    have := h96 img hmem
    omega
  constructor
  · rw [splitChunks_length, List.length_map]
  · rw [show (0 : Int) = ((0 : Nat) : Int) from rfl,
      splitChunks_lengths (bytes_to_bits zip_data) _ hcaps 0,
      bytes_to_bits_length, Nat.sub_zero, List.map_map]
    congr 1
    apply List.map_congr_left
    intro img hmem
    have := h96 img hmem
    simp only [Function.comp_apply]
    omega

/-- C2 witness: the amended split law evaluated for an 8-bit payload and
two images of capacities 24 and 4 bits: allotments `[8, 0]`, two chunks. -/
theorem C2_amended_w :
    (splitChunks (bytes_to_bits [171])
        (([mkImg 12 10 [], mkImg 10 10 []] : List Img).map
          (fun img => (img.width * img.height : Int) - 96)) 0).length
      = ([mkImg 12 10 [], mkImg 10 10 []] : List Img).length ∧
    (splitChunks (bytes_to_bits [171])
        (([mkImg 12 10 [], mkImg 10 10 []] : List Img).map
          (fun img => (img.width * img.height : Int) - 96)) 0).map List.length
      = specGreedyAllot (8 * ([171] : List Nat).length)
          (([mkImg 12 10 [], mkImg 10 10 []] : List Img).map
            (fun img => img.width * img.height - 96)) :=
  C2_amended [171] [mkImg 12 10 [], mkImg 10 10 []] (by decide)

/-- C2 counterexample: payload `[171]` (8 bits) fits entirely in the first
image (capacity 24 bits), yet the encoder still writes a second stego image
holding an empty chunk, with `total_chunks = 2` embedded in both headers —
the claim's early stop (which would give a single chunk) does not happen. -/
theorem C2_cex :
    exOk? ((embed_zip_of_dir_into_images [171] [mkImg 12 10 [], mkImg 10 10 []]).map
        (fun l => l.map (fun s => ((extract_bits_from_image s).1,
          (extract_bits_from_image s).2.1))))
      = some [(0, 2), (1, 2)] ∧
    exOk? ((embed_zip_of_dir_into_images [171] [mkImg 12 10 [], mkImg 10 10 []]).map
        (fun l => l.length)) = some 2 :=
  ⟨by decide, by decide⟩

/-! ### Claim C6: insufficient-capacity failure -/

theorem embed_bits_in_image_error (img : Img) (bits : List Nat) (ci tc : Nat) (e : Err)
    (h : embed_bits_in_image img bits ci tc = .error e) :
    e = .valueError "Image not large enough to hold data chunk" := by
  simp only [embed_bits_in_image] at h
  by_cases hc : (headerBits ci tc bits.length ++ bits).length > img.width * img.height
  · rw [if_pos hc] at h
    injection h with h1
    exact h1.symm
  · rw [if_neg hc] at h
    exact absurd h (by simp)

theorem embedLoop_ne_capacity_error (total_chunks : Nat) :
    ∀ (pairs : List (Img × List Nat)) (i : Nat),
      embedLoop total_chunks pairs i
        ≠ .error (.valueError "Not enough capacity in images to store zip data")
  | [], _ => by simp [embedLoop]
  | (img, cb) :: rest, i => by
      rw [embedLoop]
      rcases hemb : embed_bits_in_image img cb i total_chunks with e | s
      · simp only []
        intro hcon
        injection hcon with h1
        rw [embed_bits_in_image_error img cb i total_chunks e hemb] at h1
        injection h1 with h2
        exact absurd h2 (by decide)
      · simp only []
        rcases hrec : embedLoop total_chunks rest (i + 1) with e | ss
        · intro hcon
          injection hcon with h1
          exact embedLoop_ne_capacity_error total_chunks rest (i + 1)
            (by rw [hrec, h1])
        · simp

/-- C6 (amended): the encoder raises its capacity error exactly when the
payload bit count exceeds the summed signed capacities `w*h - 96`, and this
check happens before any image is embedded; but the error is a fixed
message carrying **no** shortfall information. -/
theorem C6_amended (zip_data : List Nat) (imgs : List Img) :
    embed_zip_of_dir_into_images zip_data imgs
        = .error (.valueError "Not enough capacity in images to store zip data")
      ↔ (((8 * zip_data.length : Nat) : Int)
          > (imgs.map (fun img => (img.width * img.height : Int) - 96)).sum) := by
  have hlen : (bytes_to_bits zip_data).length = 8 * zip_data.length :=
    bytes_to_bits_length zip_data
  simp only [embed_zip_of_dir_into_images, hlen]
  by_cases hc : (((8 * zip_data.length : Nat) : Int)
      > (imgs.map (fun img => (img.width * img.height : Int) - 96)).sum)
  · rw [if_pos hc]
    exact iff_of_true rfl hc
  · rw [if_neg hc]
    exact iff_of_false (embedLoop_ne_capacity_error _ _ _) hc

/-- C6 witness: a 1-byte payload against a single 97-pixel image
(capacity 1 bit) triggers the capacity error. -/
theorem C6_amended_w :
    embed_zip_of_dir_into_images [0] [mkImg 97 1 []]
      = .error (.valueError "Not enough capacity in images to store zip data") :=
  (C6_amended [0] [mkImg 97 1 []]).mpr (by decide)

/-- C6 counterexample: the capacity error carries no shortfall: encoding 1
byte (shortfall 7 bits) and 2 bytes (shortfall 15 bits) into the same
1-bit-capacity image produces the *identical* error value, so the error
cannot report the shortfall the claim requires. -/
theorem C6_cex :
    exErr? (embed_zip_of_dir_into_images [0] [mkImg 97 1 []])
        = some (.valueError "Not enough capacity in images to store zip data") ∧
    exErr? (embed_zip_of_dir_into_images [0, 0] [mkImg 97 1 []])
        = some (.valueError "Not enough capacity in images to store zip data") ∧
    8 * 1 - 1 ≠ 8 * 2 - 1 :=
  ⟨by decide, by decide, by decide⟩

/-! ### Claim C7: decode completeness -/

theorem dictInsert_fresh (d : List (Nat × List Nat)) (k : Nat) (v : List Nat)
    (h : ∀ p ∈ d, p.1 ≠ k) : dictInsert d k v = d ++ [(k, v)] := by
  rw [dictInsert, if_neg]
  intro hcon
  rw [List.any_eq_true] at hcon
  obtain ⟨p, hp, hpk⟩ := hcon
  exact h p hp (by rwa [beq_iff_eq] at hpk)

theorem dictGet?_isSome (d : List (Nat × List Nat)) (k : Nat)
    (h : k ∈ d.map (fun p => p.1)) : (dictGet? d k).isSome = true := by
  rw [dictGet?, Option.isSome_map']
  rw [List.mem_map] at h
  obtain ⟨p, hp, hpk⟩ := h
  rw [List.find?_isSome]
  exact ⟨p, hp, by rw [beq_iff_eq]; exact hpk⟩

theorem recoverLoop_snd_some (t0 : Nat) :
    ∀ (imgs : List Img) (d : List (Nat × List Nat)),
      (recoverLoop imgs d (some t0)).2 = some t0
  | [], _ => rfl
  | img :: rest, d => by
      rw [recoverLoop]
      exact recoverLoop_snd_some t0 rest _

theorem extractAssoc_keys (imgs : List Img) :
    (extractAssoc imgs).map (fun p => p.1)
      = imgs.map (fun im => (extract_bits_from_image im).1) := by
  simp [extractAssoc, List.map_map]

theorem recoverLoop_cons (img : Img) (rest : List Img)
    (d : List (Nat × List Nat)) (t : Option Nat) :
    recoverLoop (img :: rest) d t
      = recoverLoop rest
          (dictInsert d (extract_bits_from_image img).1
            (extract_bits_from_image img).2.2)
          (match t with
           | none => some (extract_bits_from_image img).2.1
           | some t0 => some t0) := rfl

theorem recoverLoop_fst :
    ∀ (imgs : List Img) (d : List (Nat × List Nat)) (t : Option Nat),
      (imgs.map (fun im => (extract_bits_from_image im).1)).Nodup →
      (∀ p ∈ d, p.1 ∉ imgs.map (fun im => (extract_bits_from_image im).1)) →
      (recoverLoop imgs d t).1 = d ++ extractAssoc imgs
  | [], d, t, _, _ => by simp [recoverLoop, extractAssoc]
  | img :: rest, d, t, hnd, hdis => by
      rw [recoverLoop_cons]
      have hkey : ∀ p ∈ d, p.1 ≠ (extract_bits_from_image img).1 := by
        intro p hp hcon
        exact hdis p hp (by rw [List.map_cons, hcon]; exact List.mem_cons_self _ _)
      have hnd' := hnd
      rw [List.map_cons, List.nodup_cons] at hnd'
      have hins := dictInsert_fresh d (extract_bits_from_image img).1
        (extract_bits_from_image img).2.2 hkey
      rw [hins]
      rw [recoverLoop_fst rest (d ++ [((extract_bits_from_image img).1,
          (extract_bits_from_image img).2.2)]) _ hnd'.2 ?hdis]
      · simp [extractAssoc, List.append_assoc]
      case hdis =>
        intro p hp
        rw [List.mem_append] at hp
        rcases hp with hp | hp
        · intro hcon
          exact hdis p hp (by rw [List.map_cons]; exact List.mem_cons_of_mem _ hcon)
        · rw [List.mem_singleton] at hp
          rw [hp]
          exact hnd'.1

theorem joinFrom_ok (d : List (Nat × List Nat)) :
    ∀ (n i : Nat), (∀ j, j < n → (dictGet? d (i + j)).isSome = true) →
      joinFrom d i n
        = .ok ((List.range' i n).foldr
            (fun j acc => (dictGet? d j).getD [] ++ acc) [])
  | 0, i, _ => by simp [joinFrom]
  | n + 1, i, hsome => by
      rw [joinFrom]
      have h0 : (dictGet? d i).isSome = true := by
        have := hsome 0 (by omega)
        rwa [Nat.add_zero] at this
      obtain ⟨v, hv⟩ := Option.isSome_iff_exists.mp h0
      rw [hv]
      rw [joinFrom_ok d n (i + 1) (fun j hj => by
        have := hsome (j + 1) (by omega)
        rwa [show i + (j + 1) = i + 1 + j from by omega] at this)]
      rw [List.range'_succ]
      simp [hv]

/-- C7 (amended): when the extracted chunk indices are a permutation of
`0..total-1` (with `total` the first-seen `total_chunks` field), decode
succeeds and returns the concatenation of the chunks in ascending
`chunk_index` order, regardless of the input order of the stego images.
(When the dict size differs from the first-seen total, the code instead
fails with a fixed message naming nothing, and a matching size with
non-dense keys fails with a `KeyError` — see the counterexample.) -/
theorem C7_amended (imgs : List Img) (t : Nat)
    (hne : imgs ≠ [])
    (hfirst : (imgs.map (fun im => (extract_bits_from_image im).2.1)).head? = some t)
    (hperm : (imgs.map (fun im => (extract_bits_from_image im).1)).Perm (List.range t)) :
    recover_zip_from_images imgs = .ok (chunkConcat (extractAssoc imgs) t) := by
  cases imgs with
  | nil => exact absurd rfl hne
  | cons img rest =>
      have hnd : ((img :: rest).map (fun im => (extract_bits_from_image im).1)).Nodup :=
        hperm.nodup_iff.mpr (List.nodup_range t)
      have htc : (extract_bits_from_image img).2.1 = t := by
        rw [List.map_cons, List.head?_cons] at hfirst
        injection hfirst
      have hp2 : (recoverLoop (img :: rest) [] none).2 = some t := by
        rw [recoverLoop_cons, recoverLoop_snd_some, htc]
      have hp1 : (recoverLoop (img :: rest) [] none).1 = extractAssoc (img :: rest) := by
        rw [recoverLoop_fst (img :: rest) [] none hnd (by simp)]
        rfl
      have hlen : (extractAssoc (img :: rest)).length = t := by
        have h1 := hperm.length_eq
        rw [List.length_map, List.length_range] at h1
        rw [extractAssoc, List.length_map]
        exact h1
      simp only [recover_zip_from_images]
      rw [hp2, hp1]
      show (if (extractAssoc (img :: rest)).length ≠ t then
          Except.error (Err.valueError "Missing chunks, cannot recover full zip")
        else joinFrom (extractAssoc (img :: rest)) 0 t)
        = Except.ok (chunkConcat (extractAssoc (img :: rest)) t)
      rw [if_neg (by rw [hlen]; exact fun hcon => hcon rfl)]
      rw [joinFrom_ok (extractAssoc (img :: rest)) t 0 (fun j hj => by
        apply dictGet?_isSome
        rw [extractAssoc_keys]
        rw [show (0 : Nat) + j = j from by omega]
        exact hperm.mem_iff.mpr (List.mem_range.mpr hj))]
      rw [chunkConcat, List.range_eq_range']

/-- C7 witness: two stego images supplied in reversed index order
(indices 1 then 0, total 2) decode to the chunks concatenated in ascending
index order. -/
theorem C7_amended_w :
    recover_zip_from_images
        [mkImg 10 10 (headerBits 1 2 3 ++ [1, 1, 1]),
         mkImg 10 10 (headerBits 0 2 2 ++ [1, 0])]
      = .ok (chunkConcat (extractAssoc
          [mkImg 10 10 (headerBits 1 2 3 ++ [1, 1, 1]),
           mkImg 10 10 (headerBits 0 2 2 ++ [1, 0])]) 2) :=
  C7_amended
    [mkImg 10 10 (headerBits 1 2 3 ++ [1, 1, 1]),
     mkImg 10 10 (headerBits 0 2 2 ++ [1, 0])] 2
    (List.cons_ne_nil _ _) (by decide) (by decide)

/-- C7 counterexample: (a) a single image with header `(0, 2, 0)` — chunk 1
missing — and (b) a single image with header `(1, 2, 0)` — chunk 0
missing — both fail with the *identical* fixed-message error, so the error
names no missing indices; and (c) two images with headers `(0, 2, 0)` and
`(5, 2, 0)` pass the size check (2 distinct keys = total 2) and fail with
`KeyError 1` during reassembly instead of an incomplete-chunk-set error. -/
theorem C7_cex :
    exErr? (recover_zip_from_images [mkImg 10 10 (headerBits 0 2 0)])
        = some (.valueError "Missing chunks, cannot recover full zip") ∧
    exErr? (recover_zip_from_images [mkImg 10 10 (headerBits 1 2 0)])
        = some (.valueError "Missing chunks, cannot recover full zip") ∧
    exErr? (recover_zip_from_images
        [mkImg 10 10 (headerBits 0 2 0), mkImg 10 10 (headerBits 5 2 0)])
      = some (.keyError 1) :=
  ⟨by decide, by decide, by decide⟩

/-! ### Claim C1: full-pipeline round trip -/

/-- C1: the full encode-then-decode pipeline evaluated at the blob
`[0xDE, 0xAD]` (16 bits) with carriers of 106 and 102 pixels (capacities
10 and 6 bits, total 16 = payload size, so the claim's capacity
precondition holds): decode returns `[0xDE, 0x80, 0xB4]`, not the original
blob — `bits_to_bytes` zero-pads each chunk separately to whole bytes
before the decoder concatenates them, corrupting the output whenever a
chunk's bit-length is not a multiple of 8. -/
theorem C1_eval :
    exOk? ((embed_zip_of_dir_into_images [222, 173]
        [mkImg 53 2 [], mkImg 51 2 []]).bind recover_zip_from_images)
      = some [222, 128, 180] ∧
    some [222, 128, 180] ≠ some ([222, 173] : List Nat) :=
  ⟨by decide, by decide⟩
